import Mathlib

/-!
A verification development for the crush map builder and weight-accounting
subsystem (`src/crush/builder.h`).  The repository ships the interface
header only; the operations are modelled from the specification and the
header's doc comments, as noted on each definition.  Weights are unsigned
32-bit fixed-width quantities, embedded as `Nat` with explicit range
checks against `U32_MAX`; fallible operations return `Except`.
-/

set_option autoImplicit false

namespace Crush

/-- Maximum value representable by an unsigned 32-bit weight (`__u32`). -/
def U32_MAX : Nat := 4294967295

/-- Modelled from the spec: `CRUSH_MAX_RULES` comes from the missing
`crush.h`; the spec only requires a fixed maximum for rule identifiers. -/
def CRUSH_MAX_RULES : Nat := 256

/-- Error taxonomy of the builder (spec section 7). -/
inductive BuilderError where
  | OutOfMemory
  | WeightOverflow
  | InvalidAlgorithm
  | InvariantViolation
  | AlreadyExists
  | TooManyRules
  | ItemNotFound
deriving DecidableEq, Repr

/-- The C status code each error is reported as (negative errno values
from the header doc comments: -ENOMEM, -ERANGE, -1, -EINVAL, -EEXIST,
-ENOSPC, -ENOENT). -/
def errCode : BuilderError → Int
  | .OutOfMemory => -12
  | .WeightOverflow => -34
  | .InvalidAlgorithm => -1
  | .InvariantViolation => -22
  | .AlreadyExists => -17
  | .TooManyRules => -28
  | .ItemNotFound => -2

/-- Modelled from the spec: `crush_addition_is_unsafe` (declared in
builder.h, body in the missing builder.c) reports whether the sum of two
unsigned 32-bit weights would exceed the representable range, without
performing wrapping arithmetic. -/
def crush_addition_is_unsafe (a b : Nat) : Bool :=
  decide (a + b > U32_MAX)

/-- Modelled from the spec: `crush_multiplication_is_unsafe` reports
whether the product of two unsigned 32-bit quantities would exceed the
representable range. -/
def crush_multiplication_is_unsafe (a b : Nat) : Bool :=
  decide (a * b > U32_MAX)

/-- The four bucket selection algorithms (plus legacy straw). -/
inductive BucketAlg where
  | uniform
  | list
  | tree
  | straw
  | straw2
deriving DecidableEq, Repr

/-- Per-variant weight storage (spec section 3): Uniform buckets share a
single `item_weight` across all items; List, Tree, Straw and Straw2
buckets store one weight per item (their differences are evaluator-side
selection data, out of scope for weight accounting). -/
inductive BStore where
  | uniform (item_weight : Nat) (items : List Int)
  | perItem (itemws : List (Int × Nat))
deriving DecidableEq, Repr

/-- A bucket: common header (algorithm tag, hash selector, hierarchy
type, aggregate weight) plus variant-specific item/weight storage.
Item values that are negative denote nested buckets, non-negative values
denote leaf devices. -/
structure Bucket where
  alg : BucketAlg
  hash : Int
  btype : Int
  store : BStore
  weight : Nat
deriving DecidableEq, Repr

/-- The bucket's ordered item list (common header field). -/
def Bucket.items (b : Bucket) : List Int :=
  match b.store with
  | .uniform _ is => is
  | .perItem l => l.map Prod.fst

/-- The weight currently recorded for `item` in `b` (first occurrence),
if present. -/
def itemWeight (b : Bucket) (item : Int) : Option Nat :=
  match b.store with
  | .uniform iw is => if item ∈ is then some iw else none
  | .perItem l => (l.find? (fun p => p.fst = item)).map Prod.snd

/-- The variant-defined aggregate-weight invariant (spec section 3):
Uniform buckets have `item_weight * item count`, all other variants the
sum of per-item weights. -/
def bucketConsistentB (b : Bucket) : Bool :=
  match b.store with
  | .uniform iw is => decide (b.weight = iw * is.length)
  | .perItem l => decide (b.weight = (l.map Prod.snd).sum)

/-- Modelled from the spec: `crush_make_bucket` (body in the missing
builder.c).  Uniform buckets take their shared weight from `weights[0]`
and every item receives it; otherwise item `x` receives `weights[x]`.
The returned bucket's aggregate is the variant-defined function of the
supplied per-item weights. -/
def crush_make_bucket (alg : BucketAlg) (hash btype : Int)
    (items : List Int) (weights : List Nat) : Bucket :=
  match alg with
  | .uniform =>
      let iw := weights.headD 0
      { alg := .uniform, hash := hash, btype := btype,
        store := .uniform iw items, weight := iw * items.length }
  | a =>
      let l := items.zip weights
      { alg := a, hash := hash, btype := btype,
        store := .perItem l, weight := (l.map Prod.snd).sum }

/-- Modelled from the spec: `crush_bucket_add_item` appends `item` with
`weight`; for Uniform the supplied weight must equal the shared
`item_weight` (mismatch is an invariant violation), and the aggregate is
grown via safe arithmetic, rejecting the mutation on overflow. -/
def crush_bucket_add_item (b : Bucket) (item : Int) (weight : Nat) :
    Except BuilderError Bucket :=
  match b.store with
  | .uniform iw is =>
      if weight ≠ iw then .error .InvariantViolation
      else if crush_addition_is_unsafe b.weight weight then .error .WeightOverflow
      else .ok { b with
                 store := .uniform iw (is ++ [item])
                 weight := b.weight + weight }
  | .perItem l =>
      if crush_addition_is_unsafe b.weight weight then .error .WeightOverflow
      else .ok { b with
                 store := .perItem (l ++ [(item, weight)])
                 weight := b.weight + weight }

/-- Replace the first occurrence of `item` in an item/weight list with
the new weight, returning the former weight and the updated list. -/
def adjustList (l : List (Int × Nat)) (item : Int) (w : Nat) :
    Option (Nat × List (Int × Nat)) :=
  match l with
  | [] => none
  | (i, wi) :: rest =>
      if i = item then some (wi, (i, w) :: rest)
      else (adjustList rest item w).map (fun p => (p.fst, (i, wi) :: p.snd))

/-- Modelled from the spec: `crush_bucket_adjust_item_weight`.  For
Uniform the `item` argument is ignored, the shared weight is set to
`weight` and the aggregate becomes `weight * item count`; otherwise the
named item's weight is replaced, the aggregate updated by
`weight - former weight` via safe arithmetic (underflow or overflow of
the aggregate rejects the mutation).  Returns the signed delta applied
to the aggregate together with the updated bucket. -/
def crush_bucket_adjust_item_weight (b : Bucket) (item : Int) (weight : Nat) :
    Except BuilderError (Int × Bucket) :=
  match b.store with
  | .uniform _iw is =>
      if crush_multiplication_is_unsafe weight is.length then .error .WeightOverflow
      else
        let nw := weight * is.length
        .ok ((nw : Int) - (b.weight : Int),
             { b with store := .uniform weight is, weight := nw })
  | .perItem l =>
      match adjustList l item weight with
      | none => .error .ItemNotFound
      | some (oldw, l2) =>
          if b.weight < oldw then .error .WeightOverflow
          else if crush_addition_is_unsafe (b.weight - oldw) weight then
            .error .WeightOverflow
          else .ok ((weight : Int) - (oldw : Int),
                    { b with
                      store := .perItem l2
                      weight := b.weight - oldw + weight })

/-- Remove the first occurrence of `item` from an item/weight list,
returning its weight and the remaining list. -/
def removeList (l : List (Int × Nat)) (item : Int) :
    Option (Nat × List (Int × Nat)) :=
  match l with
  | [] => none
  | (i, wi) :: rest =>
      if i = item then some (wi, rest)
      else (removeList rest item).map (fun p => (p.fst, (i, wi) :: p.snd))

/-- Modelled from the spec: `crush_bucket_remove_item` removes `item`
from the bucket's item list and subtracts its weight from the aggregate,
clamping the aggregate to zero rather than underflowing when the item's
weight exceeds the current aggregate (a documented defensive policy, not
an error).  Removing an absent item leaves the bucket unchanged. -/
def crush_bucket_remove_item (b : Bucket) (item : Int) :
    Except BuilderError Bucket :=
  match b.store with
  | .uniform iw is =>
      if item ∈ is then
        .ok { b with
              store := .uniform iw (is.erase item)
              weight := if b.weight < iw then 0 else b.weight - iw }
      else .ok b
  | .perItem l =>
      match removeList l item with
      | none => .ok b
      | some (wi, l2) =>
          .ok { b with
                store := .perItem l2
                weight := if b.weight < wi then 0 else b.weight - wi }

/-- A single weight-maintenance operation on a bucket. -/
inductive BOp where
  | add (item : Int) (w : Nat)
  | adjust (item : Int) (w : Nat)
  | remove (item : Int)
deriving DecidableEq, Repr

/-- Apply one weight-maintenance operation. -/
def applyOp (b : Bucket) : BOp → Except BuilderError Bucket
  | .add i w => crush_bucket_add_item b i w
  | .adjust i w => (crush_bucket_adjust_item_weight b i w).map Prod.snd
  | .remove i => crush_bucket_remove_item b i

/-- Apply a sequence of operations, stopping at the first failure. -/
def applyOps (b : Bucket) : List BOp → Except BuilderError Bucket
  | [] => .ok b
  | op :: ops =>
      match applyOp b op with
      | .ok b2 => applyOps b2 ops
      | .error e => .error e

/-- Rule step opcodes (spec section 3). -/
inductive StepOp where
  | noop
  | take
  | choose_firstn
  | choose_indep
  | chooseleaf_firstn
  | chooseleaf_indep
  | emit
deriving DecidableEq, Repr

/-- One rule step: an opcode plus up to two integer arguments. -/
structure Step where
  op : StepOp
  arg1 : Int
  arg2 : Int
deriving DecidableEq, Repr

/-- A rule: a fixed-length step program plus grouping metadata. -/
structure Rule where
  ruleset : Int
  rtype : Int
  minsize : Int
  maxsize : Int
  steps : List Step
deriving DecidableEq, Repr

/-- Modelled from the spec: `crush_make_rule` allocates a rule with
`len` initially unset (no-op) steps. -/
def crush_make_rule (len : Nat) (ruleset rtype minsize maxsize : Int) : Rule :=
  { ruleset := ruleset, rtype := rtype, minsize := minsize,
    maxsize := maxsize, steps := List.replicate len ⟨.noop, 0, 0⟩ }

/-- Modelled from the spec: `crush_rule_set_step` overwrites the step at
the given zero-based position. -/
def crush_rule_set_step (r : Rule) (pos : Nat) (op : StepOp) (a1 a2 : Int) : Rule :=
  { r with steps := r.steps.set pos ⟨op, a1, a2⟩ }

/-- The aggregate root: the bucket registry (slot `p` holds the bucket
with identifier `-1 - p`) and the rule registry (slot `r` holds rule
identifier `r`); absent slots are `none`.  Tunables are omitted (no
claim concerns them). -/
structure CrushMap where
  buckets : List (Option Bucket)
  rules : List (Option Rule)
deriving DecidableEq, Repr

/-- First free slot of a registry backing list (its length when full). -/
def freeSlot {α : Type} : List (Option α) → Nat
  | [] => 0
  | none :: _ => 0
  | some _ :: rest => freeSlot rest + 1

/-- Highest free slot of a registry backing list (its length when every
slot is occupied).  Slot `p` carries bucket identifier `-1 - p`, so the
highest free slot carries the numerically lowest unused identifier of
the registry's range. -/
def lastFreeSlot {α : Type} : List (Option α) → Nat
  | [] => 0
  | none :: rest =>
      if lastFreeSlot rest < rest.length then lastFreeSlot rest + 1 else 0
  | some _ :: rest =>
      if lastFreeSlot rest < rest.length then lastFreeSlot rest + 1
      else rest.length + 1

/-- Grow a registry backing list to at least `n` slots, padding with
empty slots. -/
def growTo {α : Type} (l : List (Option α)) (n : Nat) : List (Option α) :=
  l ++ List.replicate (n - l.length) none

/-- The registry slot of a (negative) bucket identifier. -/
def bucketPos (id : Int) : Nat := (-1 - id).toNat

/-- Look up a bucket by identifier (negative identifiers only). -/
def mapBucket (m : CrushMap) (id : Int) : Option Bucket :=
  if id < 0 then (m.buckets.getD (bucketPos id) none) else none

/-- Store a bucket at its identifier's registry slot. -/
def setBucket (m : CrushMap) (id : Int) (b : Bucket) : CrushMap :=
  { m with buckets := m.buckets.set (bucketPos id) (some b) }

/-- Whether a bucket identifier is currently in use. -/
def bucketIdUsedB (m : CrushMap) (id : Int) : Bool :=
  (mapBucket m id).isSome

/-- Whether a rule identifier is currently in use. -/
def ruleIdUsedB (m : CrushMap) (r : Nat) : Bool :=
  (m.rules.getD r none).isSome

/-- Modelled from the spec: `crush_get_next_bucket_id` returns the
numerically lowest unused negative identifier of the registry's current
range (the identifier of the highest free slot), or the next identifier
past the registry (`-(length+1)`) when every slot is occupied. -/
def crush_get_next_bucket_id (m : CrushMap) : Int :=
  -1 - (lastFreeSlot m.buckets : Int)

/-- Modelled from the spec: `crush_add_bucket` registers a bucket under
an explicit negative identifier or, when `bucketno` is `none` (auto),
under the next available identifier; a non-negative explicit identifier
violates the contract, a collision reports `AlreadyExists`.  Returns the
assigned identifier and the updated map. -/
def crush_add_bucket (m : CrushMap) (bucketno : Option Int) (b : Bucket) :
    Except BuilderError (Int × CrushMap) :=
  let id := match bucketno with
    | none => crush_get_next_bucket_id m
    | some n => n
  if id ≥ 0 then .error .InvariantViolation
  else
    let pos := bucketPos id
    let bl := growTo m.buckets (pos + 1)
    if (bl.getD pos none).isSome then .error .AlreadyExists
    else .ok (id, { m with buckets := bl.set pos (some b) })

/-- Modelled from the spec: `crush_add_rule` registers a rule under an
explicit identifier in `[0, CRUSH_MAX_RULES)` or, when `ruleno` is
negative (auto), under the lowest free identifier; an identifier at or
above `CRUSH_MAX_RULES` reports `TooManyRules`, a collision
`AlreadyExists`.  Returns the assigned identifier and the updated map. -/
def crush_add_rule (m : CrushMap) (rule : Rule) (ruleno : Int) :
    Except BuilderError (Nat × CrushMap) :=
  let r : Nat := if ruleno < 0 then freeSlot m.rules else ruleno.toNat
  if r ≥ CRUSH_MAX_RULES then .error .TooManyRules
  else
    let rl := growTo m.rules (r + 1)
    if (rl.getD r none).isSome then .error .AlreadyExists
    else .ok (r, { m with rules := rl.set r (some rule) })

/-- One pass over a per-item weight list during recursive reweighting,
parameterised by the recursive reweight function `rw`.  For each nested
item whose child bucket is present, the child is reweighted first and
the stored item weight refreshed from the child's (new) aggregate; the
running partial sum is grown with safe arithmetic.  On overflow the
updates made so far are retained and `WeightOverflow` reported; `none`
means the recursion fuel ran out.  Returns the updated map, the partial
sum, the (partially) updated item list and the error, if any. -/
def rwListF (rw : CrushMap → Int → Option (CrushMap × Option BuilderError))
    (m : CrushMap) (acc : Nat) :
    List (Int × Nat) → Option (CrushMap × Nat × List (Int × Nat) × Option BuilderError)
  | [] => some (m, acc, [], none)
  | (i, w) :: rest =>
      if i < 0 ∧ (mapBucket m i).isSome then
        match rw m i with
        | none => none
        | some (m2, some e) => some (m2, acc, (i, w) :: rest, some e)
        | some (m2, none) =>
            let cw := ((mapBucket m2 i).map Bucket.weight).getD 0
            if crush_addition_is_unsafe acc cw then
              some (m2, acc, (i, cw) :: rest, some .WeightOverflow)
            else
              match rwListF rw m2 (acc + cw) rest with
              | none => none
              | some (m3, acc2, rest2, err) =>
                  some (m3, acc2, (i, cw) :: rest2, err)
      else
        if crush_addition_is_unsafe acc w then
          some (m, acc, (i, w) :: rest, some .WeightOverflow)
        else
          match rwListF rw m (acc + w) rest with
          | none => none
          | some (m2, acc2, rest2, err) =>
              some (m2, acc2, (i, w) :: rest2, err)

/-- Recursive reweighting of a Uniform bucket's nested children
(Uniform buckets store no per-item weights to refresh), parameterised by
the recursive reweight function `rw`. -/
def rwKidsF (rw : CrushMap → Int → Option (CrushMap × Option BuilderError))
    (m : CrushMap) : List Int → Option (CrushMap × Option BuilderError)
  | [] => some (m, none)
  | i :: rest =>
      if i < 0 ∧ (mapBucket m i).isSome then
        match rw m i with
        | none => none
        | some (m2, some e) => some (m2, some e)
        | some (m2, none) => rwKidsF rw m2 rest
      else rwKidsF rw m rest

/-- Modelled from the spec: `crush_reweight_bucket` recursively updates
the bucket named by `bid` and its nested children, deep first, setting
each visited bucket's aggregate to the variant-defined function of its
(refreshed) item weights; a partial-sum overflow reports
`WeightOverflow`, retaining the weights already recomputed.  The `fuel`
argument bounds the recursion depth of the embedding: `none` means the
hierarchy was deeper than `fuel` (in particular, cyclic). -/
def crush_reweight_bucket :
    Nat → CrushMap → Int → Option (CrushMap × Option BuilderError)
  | 0, _, _ => none
  | Nat.succ fuel, m, bid =>
      match mapBucket m bid with
      | none => some (m, none)
      | some b =>
          match b.store with
          | .uniform iw is =>
              match rwKidsF (crush_reweight_bucket fuel) m is with
              | none => none
              | some (m2, some e) => some (m2, some e)
              | some (m2, none) =>
                  if crush_multiplication_is_unsafe iw is.length then
                    some (m2, some .WeightOverflow)
                  else
                    some (setBucket m2 bid { b with weight := iw * is.length }, none)
          | .perItem l =>
              match rwListF (crush_reweight_bucket fuel) m 0 l with
              | none => none
              | some (m2, acc, l2, err) =>
                  some (setBucket m2 bid
                          { b with store := .perItem l2, weight := acc }, err)

/-- Whether every `take` step of every registered rule that names a
bucket (negative argument) resolves to a live registry entry. -/
def crossRefsResolveB (m : CrushMap) : Bool :=
  m.rules.all (fun orr =>
    match orr with
    | none => true
    | some r =>
        r.steps.all (fun s =>
          match s.op with
          | .take => if s.arg1 < 0 then (mapBucket m s.arg1).isSome else true
          | _ => true))

/-- Modelled from the spec: `crush_finalize` (declared `void` in
builder.h) performs the structural precomputation the external evaluator
needs, including the bucket/rule cross-reference check; its outcome is
internal and the builder-observable map content is unchanged — the
`void` return type provides no error channel. -/
def crush_finalize (m : CrushMap) : CrushMap :=
  let _crossRefsOk := crossRefsResolveB m
  m

/-- Every bucket whose registry entry an operation changed is left
satisfying the variant-defined aggregate-weight invariant. -/
def changedConsistent (m m2 : CrushMap) : Prop :=
  ∀ (id : Int) (b : Bucket), mapBucket m2 id ≠ mapBucket m id →
    mapBucket m2 id = some b → bucketConsistentB b = true

deriving instance DecidableEq for Except

/- ------------------------------------------------------------------ -/
/- Lemmas about the item/weight list helpers.                          -/
/- ------------------------------------------------------------------ -/

theorem adjustList_none {l : List (Int × Nat)} {item : Int} {w : Nat}
    (h : item ∉ l.map Prod.fst) : adjustList l item w = none := by
  induction l with
  | nil => rfl
  | cons p rest ih =>
      obtain ⟨i, wi⟩ := p
      simp only [List.map_cons, List.mem_cons] at h
      push_neg at h
      have hne : ¬ i = item := fun hc => h.1 hc.symm
      simp only [adjustList, if_neg hne, ih h.2, Option.map_none']

theorem adjustList_spec {l : List (Int × Nat)} {item : Int} {w ow : Nat}
    {l2 : List (Int × Nat)} (h : adjustList l item w = some (ow, l2)) :
    (l2.map Prod.snd).sum + ow = (l.map Prod.snd).sum + w ∧
      ow ≤ (l.map Prod.snd).sum ∧
      l2.map Prod.fst = l.map Prod.fst ∧
      (l.find? (fun p => p.fst = item)).map Prod.snd = some ow := by
  induction l generalizing l2 with
  | nil => simp [adjustList] at h
  | cons p rest ih =>
      obtain ⟨i, wi⟩ := p
      by_cases hi : i = item
      · simp only [adjustList, if_pos hi, Option.some_inj, Prod.mk.injEq] at h
        obtain ⟨h1, h2⟩ := h
        subst h1
        subst h2
        refine ⟨by simp [Nat.add_comm, Nat.add_left_comm], by simp, by simp, ?_⟩
        simp [List.find?, hi]
      · simp only [adjustList, if_neg hi, Option.map_eq_some'] at h
        obtain ⟨⟨ow2, r2⟩, hr, heq⟩ := h
        obtain ⟨he1, he2⟩ := Prod.mk.injEq .. ▸ heq
        subst he1
        subst he2
        obtain ⟨ih1, ih2, ih3, ih4⟩ := ih hr
        refine ⟨by simp [ih1]; omega, by simp; omega, by simp [ih3], ?_⟩
        simp [List.find?, hi, ih4]

theorem removeList_none {l : List (Int × Nat)} {item : Int}
    (h : item ∉ l.map Prod.fst) : removeList l item = none := by
  induction l with
  | nil => rfl
  | cons p rest ih =>
      obtain ⟨i, wi⟩ := p
      simp only [List.map_cons, List.mem_cons] at h
      push_neg at h
      have hne : ¬ i = item := fun hc => h.1 hc.symm
      simp only [removeList, if_neg hne, ih h.2, Option.map_none']

theorem removeList_spec {l : List (Int × Nat)} {item : Int} {wi : Nat}
    {l2 : List (Int × Nat)} (h : removeList l item = some (wi, l2)) :
    (l2.map Prod.snd).sum + wi = (l.map Prod.snd).sum ∧
      wi ≤ (l.map Prod.snd).sum ∧
      l2.map Prod.fst = (l.map Prod.fst).erase item ∧
      (l.find? (fun p => p.fst = item)).map Prod.snd = some wi := by
  induction l generalizing l2 with
  | nil => simp [removeList] at h
  | cons p rest ih =>
      obtain ⟨i, w⟩ := p
      by_cases hi : i = item
      · simp only [removeList, if_pos hi, Option.some_inj, Prod.mk.injEq] at h
        obtain ⟨h1, h2⟩ := h
        subst h1
        subst h2
        refine ⟨by simp [Nat.add_comm], by simp, ?_, ?_⟩
        · simp [hi, List.erase_cons_head]
        · simp [List.find?, hi]
      · simp only [removeList, if_neg hi, Option.map_eq_some'] at h
        obtain ⟨⟨w2, r2⟩, hr, heq⟩ := h
        obtain ⟨he1, he2⟩ := Prod.mk.injEq .. ▸ heq
        subst he1
        subst he2
        obtain ⟨ih1, ih2, ih3, ih4⟩ := ih hr
        refine ⟨by simp; omega, by simp; omega, ?_, ?_⟩
        · have : (i :: rest.map Prod.fst).erase item =
              i :: ((rest.map Prod.fst).erase item) :=
            List.erase_cons_tail (by simp [hi])
          simp [this, ih3]
        · simp [List.find?, hi, ih4]

theorem removeList_append_self {l : List (Int × Nat)} {item : Int} {w : Nat}
    (h : item ∉ l.map Prod.fst) :
    removeList (l ++ [(item, w)]) item = some (w, l) := by
  induction l with
  | nil => simp [removeList]
  | cons p rest ih =>
      obtain ⟨i, wi⟩ := p
      simp only [List.map_cons, List.mem_cons] at h
      push_neg at h
      have hne : ¬ i = item := fun hc => h.1 hc.symm
      simp [removeList, hne, ih h.2]

theorem removeList_some_of_mem {l : List (Int × Nat)} {item : Int}
    (h : item ∈ l.map Prod.fst) :
    ∃ wi l2, removeList l item = some (wi, l2) := by
  induction l with
  | nil => simp at h
  | cons p rest ih =>
      obtain ⟨i, w⟩ := p
      by_cases hi : i = item
      · exact ⟨w, rest, by simp [removeList, hi]⟩
      · simp only [List.map_cons, List.mem_cons] at h
        rcases h with h1 | h2
        · exact absurd h1.symm hi
        · obtain ⟨wi, l2, hr⟩ := ih h2
          exact ⟨wi, (i, w) :: l2, by simp [removeList, hi, hr]⟩

/- ------------------------------------------------------------------ -/
/- Lemmas about the registry helpers.                                  -/
/- ------------------------------------------------------------------ -/

theorem freeSlot_getD {α : Type} (l : List (Option α)) :
    l.getD (freeSlot l) none = none := by
  induction l with
  | nil => rfl
  | cons x rest ih =>
      cases x with
      | none => rfl
      | some a => simpa [freeSlot] using ih

theorem getD_lt_freeSlot {α : Type} {l : List (Option α)} {k : Nat}
    (h : k < freeSlot l) : (l.getD k none).isSome = true := by
  induction l generalizing k with
  | nil => simp [freeSlot] at h
  | cons x rest ih =>
      cases x with
      | none => simp [freeSlot] at h
      | some a =>
          cases k with
          | zero => simp
          | succ k =>
              simp only [freeSlot] at h
              simpa using ih (by omega)

theorem lastFreeSlot_le_length {α : Type} (l : List (Option α)) :
    lastFreeSlot l ≤ l.length := by
  induction l with
  | nil => simp [lastFreeSlot]
  | cons x rest ih =>
      cases x with
      | none =>
          rw [lastFreeSlot]
          by_cases hc : lastFreeSlot rest < rest.length
          · rw [if_pos hc]
            simp only [List.length_cons]
            omega
          · rw [if_neg hc]
            simp
      | some a =>
          rw [lastFreeSlot]
          by_cases hc : lastFreeSlot rest < rest.length
          · rw [if_pos hc]
            simp only [List.length_cons]
            omega
          · rw [if_neg hc]
            simp

theorem lastFreeSlot_getD {α : Type} (l : List (Option α)) :
    l.getD (lastFreeSlot l) none = none := by
  induction l with
  | nil => rfl
  | cons x rest ih =>
      cases x with
      | none =>
          rw [lastFreeSlot]
          by_cases hc : lastFreeSlot rest < rest.length
          · rw [if_pos hc]
            simpa using ih
          · rw [if_neg hc]
            rfl
      | some a =>
          rw [lastFreeSlot]
          by_cases hc : lastFreeSlot rest < rest.length
          · rw [if_pos hc]
            simpa using ih
          · rw [if_neg hc]
            rw [List.getD_eq_getElem?_getD,
              List.getElem?_eq_none (by simp), Option.getD_none]

theorem full_of_lastFreeSlot_eq_length {α : Type} {l : List (Option α)}
    (h : lastFreeSlot l = l.length) :
    ∀ k, k < l.length → (l.getD k none).isSome = true := by
  induction l with
  | nil =>
      intro k hk
      simp at hk
  | cons x rest ih =>
      cases x with
      | none =>
          rw [lastFreeSlot] at h
          simp only [List.length_cons] at h
          by_cases hc : lastFreeSlot rest < rest.length
          · rw [if_pos hc] at h
            exact absurd h (by omega)
          · rw [if_neg hc] at h
            exact absurd h (by omega)
      | some a =>
          rw [lastFreeSlot] at h
          simp only [List.length_cons] at h
          by_cases hc : lastFreeSlot rest < rest.length
          · rw [if_pos hc] at h
            exact absurd h (by omega)
          · rw [if_neg hc] at h
            have hfull : lastFreeSlot rest = rest.length := by
              have := lastFreeSlot_le_length rest
              omega
            intro k hk
            cases k with
            | zero => simp
            | succ k =>
                simp only [List.length_cons] at hk
                simpa using ih hfull k (by omega)

theorem getD_isSome_of_gt_lastFreeSlot {α : Type} {l : List (Option α)} {k : Nat}
    (hgt : lastFreeSlot l < k) (hlt : k < l.length) :
    (l.getD k none).isSome = true := by
  induction l generalizing k with
  | nil => simp at hlt
  | cons x rest ih =>
      cases x with
      | none =>
          rw [lastFreeSlot] at hgt
          by_cases hc : lastFreeSlot rest < rest.length
          · rw [if_pos hc] at hgt
            cases k with
            | zero => exact absurd hgt (by omega)
            | succ k =>
                simp only [List.length_cons] at hlt
                simpa using ih (by omega) (by omega)
          · rw [if_neg hc] at hgt
            have hfull : lastFreeSlot rest = rest.length := by
              have := lastFreeSlot_le_length rest
              omega
            cases k with
            | zero => exact absurd hgt (by omega)
            | succ k =>
                simp only [List.length_cons] at hlt
                simpa using full_of_lastFreeSlot_eq_length hfull k (by omega)
      | some a =>
          rw [lastFreeSlot] at hgt
          by_cases hc : lastFreeSlot rest < rest.length
          · rw [if_pos hc] at hgt
            cases k with
            | zero => exact absurd hgt (by omega)
            | succ k =>
                simp only [List.length_cons] at hlt
                simpa using ih (by omega) (by omega)
          · rw [if_neg hc] at hgt
            simp only [List.length_cons] at hlt
            exact absurd hlt (by omega)

theorem replicate_getD_none {α : Type} (n k : Nat) :
    ((List.replicate n (none : Option α)).getD k none) = none := by
  induction n generalizing k with
  | zero => simp
  | succ n ih =>
      cases k with
      | zero => simp
      | succ k => simp [ih k]

theorem growTo_cons {α : Type} (x : Option α) (l : List (Option α)) (n : Nat) :
    growTo (x :: l) (n + 1) = x :: growTo l n := by
  simp [growTo, Nat.succ_sub_succ]

theorem growTo_getD {α : Type} (l : List (Option α)) (n k : Nat) :
    (growTo l n).getD k none = l.getD k none := by
  induction l generalizing n k with
  | nil =>
      simp only [growTo, List.nil_append, Nat.sub_zero, List.length_nil]
      rw [replicate_getD_none]
      cases k <;> rfl
  | cons x rest ih =>
      cases n with
      | zero =>
          simp [growTo]
      | succ n =>
          rw [growTo_cons]
          cases k with
          | zero => rfl
          | succ k => simpa using ih n k

/- ------------------------------------------------------------------ -/
/- Lemmas about bucket lookup and update in the registry.              -/
/- ------------------------------------------------------------------ -/

theorem mapBucket_isSome_pos {m : CrushMap} {id : Int} {b : Bucket}
    (h : mapBucket m id = some b) :
    id < 0 ∧ bucketPos id < m.buckets.length := by
  rw [mapBucket] at h
  by_cases hneg : id < 0
  · refine ⟨hneg, ?_⟩
    rw [if_pos hneg] at h
    by_contra hge
    push_neg at hge
    rw [List.getD_eq_getElem?_getD, List.getElem?_eq_none (by omega)] at h
    simp at h
  · rw [if_neg hneg] at h
    simp at h

theorem setBucket_buckets_length (m : CrushMap) (id : Int) (b : Bucket) :
    (setBucket m id b).buckets.length = m.buckets.length := by
  simp [setBucket]

theorem mapBucket_setBucket_self {m : CrushMap} {id : Int} (b : Bucket)
    (hneg : id < 0) (hlt : bucketPos id < m.buckets.length) :
    mapBucket (setBucket m id b) id = some b := by
  rw [mapBucket, if_pos hneg]
  simp only [setBucket]
  rw [List.getD_eq_getElem?_getD, List.getElem?_set_self',
    List.getElem?_eq_getElem hlt]
  rfl

theorem mapBucket_setBucket_ne {m : CrushMap} {id id2 : Int} (b : Bucket)
    (hneg : id < 0) (hne : id2 ≠ id) :
    mapBucket (setBucket m id b) id2 = mapBucket m id2 := by
  rw [mapBucket, mapBucket]
  by_cases h2 : id2 < 0
  · rw [if_pos h2, if_pos h2]
    simp only [setBucket]
    rw [List.getD_eq_getElem?_getD, List.getD_eq_getElem?_getD,
      List.getElem?_set_ne (by simp only [bucketPos]; omega)]
  · rw [if_neg h2, if_neg h2]

theorem changedConsistent_refl (m : CrushMap) : changedConsistent m m :=
  fun _ _ hne _ => absurd rfl hne

theorem changedConsistent_trans {m1 m2 m3 : CrushMap}
    (h12 : changedConsistent m1 m2) (h23 : changedConsistent m2 m3) :
    changedConsistent m1 m3 := by
  intro id b hne hsome
  by_cases h : mapBucket m3 id = mapBucket m2 id
  · have hne2 : mapBucket m2 id ≠ mapBucket m1 id := by
      rw [← h]
      exact hne
    exact h12 id b hne2 (h ▸ hsome)
  · exact h23 id b h hsome

theorem changedConsistent_set {m : CrushMap} {id : Int} {b : Bucket}
    (hneg : id < 0) (hlt : bucketPos id < m.buckets.length)
    (hcons : bucketConsistentB b = true) :
    changedConsistent m (setBucket m id b) := by
  intro id2 b2 hne hsome
  by_cases h2 : id2 = id
  · subst h2
    rw [mapBucket_setBucket_self b hneg hlt] at hsome
    cases hsome
    exact hcons
  · rw [mapBucket_setBucket_ne b hneg h2] at hne
    exact absurd rfl hne

/- ------------------------------------------------------------------ -/
/- Lemmas about recursive reweighting.                                 -/
/- ------------------------------------------------------------------ -/

theorem rwListF_ok {rw : CrushMap → Int → Option (CrushMap × Option BuilderError)}
    (hrw : ∀ m bid m2, rw m bid = some (m2, none) →
      m2.buckets.length = m.buckets.length ∧ changedConsistent m m2) :
    ∀ {l l2 : List (Int × Nat)} {m m2 : CrushMap} {acc acc2 : Nat},
      rwListF rw m acc l = some (m2, acc2, l2, none) →
      m2.buckets.length = m.buckets.length ∧ changedConsistent m m2 ∧
        acc2 = acc + (l2.map Prod.snd).sum ∧
        l2.map Prod.fst = l.map Prod.fst := by
  intro l
  induction l with
  | nil =>
      intro l2 m m2 acc acc2 h
      simp only [rwListF, Option.some_inj, Prod.mk.injEq] at h
      obtain ⟨rfl, rfl, rfl, -⟩ := h
      exact ⟨rfl, changedConsistent_refl m, by simp, rfl⟩
  | cons p rest ih =>
      obtain ⟨i, w⟩ := p
      intro l2 m m2 acc acc2 h
      rw [rwListF] at h
      by_cases hcond : i < 0 ∧ (mapBucket m i).isSome = true
      · rw [if_pos hcond] at h
        rcases hc : rw m i with _ | ⟨ma, oe⟩
        · rw [hc] at h
          simp at h
        · rw [hc] at h
          rcases oe with _ | e
          · simp only at h
            by_cases hov : crush_addition_is_unsafe acc
                (((mapBucket ma i).map Bucket.weight).getD 0) = true
            · rw [if_pos hov] at h
              simp at h
            · rw [if_neg hov] at h
              rcases hr : rwListF rw ma
                  (acc + ((mapBucket ma i).map Bucket.weight).getD 0) rest with
                _ | ⟨mb, accb, restb, errb⟩
              · rw [hr] at h
                simp at h
              · rw [hr] at h
                simp only [Option.some_inj, Prod.mk.injEq] at h
                obtain ⟨rfl, rfl, rfl, herr⟩ := h
                subst herr
                obtain ⟨hlen1, hch1⟩ := hrw m i ma hc
                obtain ⟨hlen2, hch2, hacc, hfst⟩ := ih hr
                refine ⟨by omega, changedConsistent_trans hch1 hch2, ?_, ?_⟩
                · simp only [List.map_cons, List.sum_cons]
                  omega
                · simp [hfst]
          · simp only at h
            simp at h
      · rw [if_neg hcond] at h
        by_cases hov : crush_addition_is_unsafe acc w = true
        · rw [if_pos hov] at h
          simp at h
        · rw [if_neg hov] at h
          rcases hr : rwListF rw m (acc + w) rest with
            _ | ⟨mb, accb, restb, errb⟩
          · rw [hr] at h
            simp at h
          · rw [hr] at h
            simp only [Option.some_inj, Prod.mk.injEq] at h
            obtain ⟨rfl, rfl, rfl, herr⟩ := h
            subst herr
            obtain ⟨hlen2, hch2, hacc, hfst⟩ := ih hr
            refine ⟨hlen2, hch2, ?_, ?_⟩
            · simp only [List.map_cons, List.sum_cons]
              omega
            · simp [hfst]

theorem rwKidsF_ok {rw : CrushMap → Int → Option (CrushMap × Option BuilderError)}
    (hrw : ∀ m bid m2, rw m bid = some (m2, none) →
      m2.buckets.length = m.buckets.length ∧ changedConsistent m m2) :
    ∀ {is : List Int} {m m2 : CrushMap},
      rwKidsF rw m is = some (m2, none) →
      m2.buckets.length = m.buckets.length ∧ changedConsistent m m2 := by
  intro is
  induction is with
  | nil =>
      intro m m2 h
      simp only [rwKidsF, Option.some_inj, Prod.mk.injEq] at h
      obtain ⟨rfl, -⟩ := h
      exact ⟨rfl, changedConsistent_refl m⟩
  | cons i rest ih =>
      intro m m2 h
      rw [rwKidsF] at h
      by_cases hcond : i < 0 ∧ (mapBucket m i).isSome = true
      · rw [if_pos hcond] at h
        rcases hc : rw m i with _ | ⟨ma, oe⟩
        · rw [hc] at h
          simp at h
        · rw [hc] at h
          rcases oe with _ | e
          · obtain ⟨hlen1, hch1⟩ := hrw m i ma hc
            obtain ⟨hlen2, hch2⟩ := ih h
            exact ⟨by omega, changedConsistent_trans hch1 hch2⟩
          · simp at h
      · rw [if_neg hcond] at h
        exact ih h

theorem rwListF_err {rw : CrushMap → Int → Option (CrushMap × Option BuilderError)}
    (hrw : ∀ m bid m2 e, rw m bid = some (m2, some e) → e = .WeightOverflow) :
    ∀ {l l2 : List (Int × Nat)} {m m2 : CrushMap} {acc acc2 : Nat}
      {e : BuilderError},
      rwListF rw m acc l = some (m2, acc2, l2, some e) → e = .WeightOverflow := by
  intro l
  induction l with
  | nil =>
      intro l2 m m2 acc acc2 e h
      simp [rwListF] at h
  | cons p rest ih =>
      obtain ⟨i, w⟩ := p
      intro l2 m m2 acc acc2 e h
      rw [rwListF] at h
      by_cases hcond : i < 0 ∧ (mapBucket m i).isSome = true
      · rw [if_pos hcond] at h
        rcases hc : rw m i with _ | ⟨ma, oe⟩
        · rw [hc] at h
          simp at h
        · rw [hc] at h
          rcases oe with _ | e2
          · simp only at h
            by_cases hov : crush_addition_is_unsafe acc
                (((mapBucket ma i).map Bucket.weight).getD 0) = true
            · rw [if_pos hov] at h
              simp only [Option.some_inj, Prod.mk.injEq] at h
              obtain ⟨-, -, -, herr⟩ := h
              exact herr.symm
            · rw [if_neg hov] at h
              rcases hr : rwListF rw ma
                  (acc + ((mapBucket ma i).map Bucket.weight).getD 0) rest with
                _ | ⟨mb, accb, restb, errb⟩
              · rw [hr] at h
                simp at h
              · rw [hr] at h
                simp only [Option.some_inj, Prod.mk.injEq] at h
                obtain ⟨rfl, rfl, rfl, herr⟩ := h
                exact ih (herr ▸ hr)
          · simp only [Option.some_inj, Prod.mk.injEq] at h
            obtain ⟨rfl, -, -, herr⟩ := h
            exact herr ▸ hrw m i ma e2 hc
      · rw [if_neg hcond] at h
        by_cases hov : crush_addition_is_unsafe acc w = true
        · rw [if_pos hov] at h
          simp only [Option.some_inj, Prod.mk.injEq] at h
          obtain ⟨-, -, -, herr⟩ := h
          exact herr.symm
        · rw [if_neg hov] at h
          rcases hr : rwListF rw m (acc + w) rest with
            _ | ⟨mb, accb, restb, errb⟩
          · rw [hr] at h
            simp at h
          · rw [hr] at h
            simp only [Option.some_inj, Prod.mk.injEq] at h
            obtain ⟨rfl, rfl, rfl, herr⟩ := h
            exact ih (herr ▸ hr)

theorem rwKidsF_err {rw : CrushMap → Int → Option (CrushMap × Option BuilderError)}
    (hrw : ∀ m bid m2 e, rw m bid = some (m2, some e) → e = .WeightOverflow) :
    ∀ {is : List Int} {m m2 : CrushMap} {e : BuilderError},
      rwKidsF rw m is = some (m2, some e) → e = .WeightOverflow := by
  intro is
  induction is with
  | nil =>
      intro m m2 e h
      simp [rwKidsF] at h
  | cons i rest ih =>
      intro m m2 e h
      rw [rwKidsF] at h
      by_cases hcond : i < 0 ∧ (mapBucket m i).isSome = true
      · rw [if_pos hcond] at h
        rcases hc : rw m i with _ | ⟨ma, oe⟩
        · rw [hc] at h
          simp at h
        · rw [hc] at h
          rcases oe with _ | e2
          · exact ih h
          · simp only [Option.some_inj, Prod.mk.injEq] at h
            obtain ⟨rfl, herr⟩ := h
            exact herr ▸ hrw m i ma e2 hc
      · rw [if_neg hcond] at h
        exact ih h

theorem reweight_ok :
    ∀ (fuel : Nat) (m : CrushMap) (bid : Int) (m2 : CrushMap),
      crush_reweight_bucket fuel m bid = some (m2, none) →
      m2.buckets.length = m.buckets.length ∧ changedConsistent m m2 ∧
        (∀ b2, mapBucket m2 bid = some b2 → bucketConsistentB b2 = true) := by
  intro fuel
  induction fuel with
  | zero =>
      intro m bid m2 h
      simp [crush_reweight_bucket] at h
  | succ fuel ih =>
      intro m bid m2 h
      rw [crush_reweight_bucket] at h
      rcases hmb : mapBucket m bid with _ | b
      · simp only [hmb, Option.some_inj, Prod.mk.injEq] at h
        obtain ⟨rfl, -⟩ := h
        refine ⟨rfl, changedConsistent_refl m, ?_⟩
        intro b2 hb2
        rw [hmb] at hb2
        exact absurd hb2 (by simp)
      · obtain ⟨hbneg, hblt⟩ := mapBucket_isSome_pos hmb
        simp only [hmb] at h
        have hih : ∀ (ma : CrushMap) (bida : Int) (mb : CrushMap),
            crush_reweight_bucket fuel ma bida = some (mb, none) →
            mb.buckets.length = ma.buckets.length ∧ changedConsistent ma mb :=
          fun ma bida mb hh => ⟨(ih ma bida mb hh).1, (ih ma bida mb hh).2.1⟩
        rcases hstore : b.store with ⟨iw, is⟩ | l
        · simp only [hstore] at h
          rcases hk : rwKidsF (crush_reweight_bucket fuel) m is with _ | ⟨ma, oe⟩
          · simp [hk] at h
          · rcases oe with _ | e
            · simp only [hk] at h
              by_cases hmu : crush_multiplication_is_unsafe iw is.length = true
              · rw [if_pos hmu] at h
                simp at h
              · rw [if_neg hmu] at h
                simp only [Option.some_inj, Prod.mk.injEq] at h
                obtain ⟨hm2, -⟩ := h
                subst hm2
                obtain ⟨hlen, hch⟩ := rwKidsF_ok hih hk
                have hconsnew :
                    bucketConsistentB { alg := b.alg, hash := b.hash, btype := b.btype, store := BStore.uniform iw is, weight := iw * is.length } = true := by
                  simp [bucketConsistentB]
                have hblt2 : bucketPos bid < ma.buckets.length := by omega
                refine ⟨?_, changedConsistent_trans hch
                    (changedConsistent_set hbneg hblt2 hconsnew), ?_⟩
                · rw [setBucket_buckets_length]
                  omega
                · intro b2 hb2
                  rw [mapBucket_setBucket_self _ hbneg hblt2] at hb2
                  cases hb2
                  exact hconsnew
            · simp [hk] at h
        · simp only [hstore] at h
          rcases hl : rwListF (crush_reweight_bucket fuel) m 0 l with
            _ | ⟨ma, acc, l2, err⟩
          · simp [hl] at h
          · simp only [hl, Option.some_inj, Prod.mk.injEq] at h
            obtain ⟨hm2, herr⟩ := h
            subst herr
            subst hm2
            obtain ⟨hlen, hch, hacc, -⟩ := rwListF_ok hih hl
            have hconsnew :
                bucketConsistentB
                  { b with store := .perItem l2, weight := acc } = true := by
              simp [bucketConsistentB, hacc]
            have hblt2 : bucketPos bid < ma.buckets.length := by omega
            refine ⟨?_, changedConsistent_trans hch
                (changedConsistent_set hbneg hblt2 hconsnew), ?_⟩
            · rw [setBucket_buckets_length]
              omega
            · intro b2 hb2
              rw [mapBucket_setBucket_self _ hbneg hblt2] at hb2
              cases hb2
              exact hconsnew

theorem reweight_err :
    ∀ (fuel : Nat) (m : CrushMap) (bid : Int) (m2 : CrushMap) (e : BuilderError),
      crush_reweight_bucket fuel m bid = some (m2, some e) →
      e = .WeightOverflow := by
  intro fuel
  induction fuel with
  | zero =>
      intro m bid m2 e h
      simp [crush_reweight_bucket] at h
  | succ fuel ih =>
      intro m bid m2 e h
      rw [crush_reweight_bucket] at h
      rcases hmb : mapBucket m bid with _ | b
      · simp [hmb] at h
      · simp only [hmb] at h
        rcases hstore : b.store with ⟨iw, is⟩ | l
        · simp only [hstore] at h
          rcases hk : rwKidsF (crush_reweight_bucket fuel) m is with _ | ⟨ma, oe⟩
          · simp [hk] at h
          · rcases oe with _ | e2
            · simp only [hk] at h
              by_cases hmu : crush_multiplication_is_unsafe iw is.length = true
              · rw [if_pos hmu] at h
                simp only [Option.some_inj, Prod.mk.injEq] at h
                obtain ⟨-, herr⟩ := h
                exact herr.symm
              · rw [if_neg hmu] at h
                simp at h
            · simp only [hk, Option.some_inj, Prod.mk.injEq] at h
              obtain ⟨-, herr⟩ := h
              exact herr ▸ rwKidsF_err ih hk
        · simp only [hstore] at h
          rcases hl : rwListF (crush_reweight_bucket fuel) m 0 l with
            _ | ⟨ma, acc, l2, err⟩
          · simp [hl] at h
          · simp only [hl, Option.some_inj, Prod.mk.injEq] at h
            obtain ⟨-, herr⟩ := h
            exact rwListF_err ih (herr ▸ hl)

/- ------------------------------------------------------------------ -/
/- Preservation of the aggregate-weight invariant.                     -/
/- ------------------------------------------------------------------ -/

theorem make_bucket_consistent (alg : BucketAlg) (hash btype : Int)
    (items : List Int) (weights : List Nat) :
    bucketConsistentB (crush_make_bucket alg hash btype items weights) = true := by
  cases alg <;> simp [crush_make_bucket, bucketConsistentB]

theorem applyOp_preserves {b b2 : Bucket} {op : BOp}
    (hc : bucketConsistentB b = true) (h : applyOp b op = .ok b2) :
    bucketConsistentB b2 = true := by
  obtain ⟨alg, hash, btype, store, weight⟩ := b
  cases op with
  | add item w =>
      cases store with
      | uniform iw is =>
          simp only [applyOp, crush_bucket_add_item] at h
          by_cases h1 : w = iw
          · subst h1
            simp only [ne_eq, not_true_eq_false, if_neg, if_false] at h
            by_cases h2 : crush_addition_is_unsafe weight w = true
            · simp [h2] at h
            · simp only [Bool.not_eq_true] at h2
              simp only [h2, Bool.false_eq_true, if_false, Except.ok.injEq] at h
              subst h
              simp only [bucketConsistentB, decide_eq_true_eq] at hc ⊢
              simp [List.length_append, Nat.mul_succ, hc]
          · simp [h1] at h
      | perItem l =>
          simp only [applyOp, crush_bucket_add_item] at h
          by_cases h2 : crush_addition_is_unsafe weight w = true
          · simp [h2] at h
          · simp only [Bool.not_eq_true] at h2
            simp only [h2, Bool.false_eq_true, if_false, Except.ok.injEq] at h
            subst h
            simp only [bucketConsistentB, decide_eq_true_eq] at hc ⊢
            simp [hc]
  | adjust item w =>
      cases store with
      | uniform iw is =>
          simp only [applyOp, crush_bucket_adjust_item_weight, Except.map] at h
          by_cases h2 : crush_multiplication_is_unsafe w is.length = true
          · simp [h2] at h
          · simp only [Bool.not_eq_true] at h2
            simp only [h2, Bool.false_eq_true, if_false, Except.ok.injEq] at h
            subst h
            simp [bucketConsistentB]
      | perItem l =>
          simp only [applyOp, crush_bucket_adjust_item_weight, Except.map] at h
          rcases hal : adjustList l item w with _ | ⟨ow, l2⟩
          · simp [hal] at h
          · obtain ⟨hsum, hle, _, _⟩ := adjustList_spec hal
            simp only [hal] at h
            by_cases hg1 : weight < ow
            · simp [hg1] at h
            · by_cases hg2 : crush_addition_is_unsafe (weight - ow) w = true
              · simp [hg1, hg2] at h
              · simp only [Bool.not_eq_true] at hg2
                simp only [hg1, if_false, hg2, Bool.false_eq_true,
                  Except.ok.injEq] at h
                subst h
                simp only [bucketConsistentB, decide_eq_true_eq] at hc ⊢
                omega
  | remove item =>
      cases store with
      | uniform iw is =>
          simp only [applyOp, crush_bucket_remove_item] at h
          by_cases hmem : item ∈ is
          · simp only [hmem, if_true, Except.ok.injEq] at h
            subst h
            simp only [bucketConsistentB, decide_eq_true_eq] at hc ⊢
            have hpos : 0 < is.length := List.length_pos_of_mem hmem
            have hlen : (is.erase item).length = is.length - 1 :=
              List.length_erase_of_mem hmem
            have hmul : iw * (is.length - 1 + 1) = iw * (is.length - 1) + iw :=
              Nat.mul_succ iw (is.length - 1)
            have hlen2 : is.length - 1 + 1 = is.length := by omega
            rw [hlen]
            rw [hlen2] at hmul
            rw [if_neg (by omega : ¬ weight < iw)]
            omega
          · simp only [hmem, if_false, Except.ok.injEq] at h
            subst h
            exact hc
      | perItem l =>
          simp only [applyOp, crush_bucket_remove_item] at h
          rcases hrl : removeList l item with _ | ⟨wi, l2⟩
          · simp only [hrl, Except.ok.injEq] at h
            subst h
            exact hc
          · obtain ⟨hsum, hle, _, _⟩ := removeList_spec hrl
            simp only [hrl, Except.ok.injEq] at h
            subst h
            simp only [bucketConsistentB, decide_eq_true_eq] at hc ⊢
            rw [if_neg (by omega : ¬ weight < wi)]
            omega

theorem applyOps_preserves {b b2 : Bucket} {ops : List BOp}
    (hc : bucketConsistentB b = true) (h : applyOps b ops = .ok b2) :
    bucketConsistentB b2 = true := by
  induction ops generalizing b with
  | nil =>
      simp only [applyOps, Except.ok.injEq] at h
      subst h
      exact hc
  | cons op ops ih =>
      simp only [applyOps] at h
      rcases hop : applyOp b op with e | b1
      · simp [hop] at h
      · simp only [hop] at h
        exact ih (applyOp_preserves hc hop) h

/- ------------------------------------------------------------------ -/
/- Claim theorems.                                                     -/
/- ------------------------------------------------------------------ -/

/-- C1: for every bucket of every variant, at construction via
`crush_make_bucket` and after any sequence of add-item,
adjust-item-weight and remove-item operations that each report success,
the aggregate weight equals the variant-defined function of the current
per-item weights (`item_weight` times item count for Uniform, the sum of
per-item weights otherwise). -/
theorem claim_C1_invariant (alg : BucketAlg) (hash btype : Int)
    (items : List Int) (weights : List Nat) (ops : List BOp) (b2 : Bucket)
    (h : applyOps (crush_make_bucket alg hash btype items weights) ops = .ok b2) :
    bucketConsistentB b2 = true :=
  applyOps_preserves (make_bucket_consistent alg hash btype items weights) h

/-- Witness for C1: a List bucket built from items `[1, 2]` with weights
`[10, 20]`, after a successful add, adjust and remove, satisfies the
aggregate-weight invariant. -/
theorem claim_C1_witness :
    bucketConsistentB
      { alg := .list, hash := 0, btype := 0,
        store := .perItem [(2, 25), (3, 30)], weight := 55 } = true :=
  claim_C1_invariant .list 0 0 [1, 2] [10, 20]
    [.add 3 30, .adjust 2 25, .remove 1]
    { alg := .list, hash := 0, btype := 0,
      store := .perItem [(2, 25), (3, 30)], weight := 55 } rfl

/-- C3: on a non-Uniform bucket containing item `i` with current weight
`w1`, a successful `crush_bucket_adjust_item_weight` to `w2` changes the
aggregate by exactly `w2 - w1` and returns that signed delta; on a
Uniform bucket the `item` argument is ignored, the shared `item_weight`
is set to the new weight and the new aggregate is the new weight times
the item count. -/
theorem claim_C3_adjust :
    (∀ (b : Bucket) (item : Int) (w2 w1 : Nat) (l : List (Int × Nat))
        (d : Int) (b2 : Bucket),
        b.store = .perItem l → itemWeight b item = some w1 →
        crush_bucket_adjust_item_weight b item w2 = .ok (d, b2) →
        d = (w2 : Int) - (w1 : Int) ∧
          (b2.weight : Int) = (b.weight : Int) + ((w2 : Int) - (w1 : Int))) ∧
    (∀ (b : Bucket) (i j : Int) (w iw : Nat) (is : List Int),
        b.store = .uniform iw is →
        crush_bucket_adjust_item_weight b i w =
          crush_bucket_adjust_item_weight b j w ∧
        ∀ (d : Int) (b2 : Bucket),
          crush_bucket_adjust_item_weight b i w = .ok (d, b2) →
          b2.store = .uniform w is ∧ b2.weight = w * is.length) := by
  constructor
  · intro b item w2 w1 l d b2 hs hw hadj
    have hw2 : (l.find? (fun p => p.fst = item)).map Prod.snd = some w1 := by
      simpa [itemWeight, hs] using hw
    rcases hal : adjustList l item w2 with _ | ⟨ow, l2⟩
    · rw [crush_bucket_adjust_item_weight, hs] at hadj
      simp [hal] at hadj
    · obtain ⟨_, _, _, hfind⟩ := adjustList_spec hal
      have how : ow = w1 := by
        rw [hfind] at hw2
        exact Option.some_inj.mp hw2
      subst how
      rw [crush_bucket_adjust_item_weight, hs] at hadj
      simp only [hal] at hadj
      by_cases hg1 : b.weight < ow
      · simp [hg1] at hadj
      · by_cases hg2 : crush_addition_is_unsafe (b.weight - ow) w2 = true
        · simp [hg1, hg2] at hadj
        · simp only [Bool.not_eq_true] at hg2
          simp only [hg1, if_false, hg2, Bool.false_eq_true,
            Except.ok.injEq, Prod.mk.injEq] at hadj
          obtain ⟨hd, hb2⟩ := hadj
          subst hd
          subst hb2
          refine ⟨rfl, ?_⟩
          push_cast
          omega
  · intro b i j w iw is hs
    constructor
    · rw [crush_bucket_adjust_item_weight, crush_bucket_adjust_item_weight, hs]
    · intro d b2 hadj
      rw [crush_bucket_adjust_item_weight, hs] at hadj
      by_cases hg : crush_multiplication_is_unsafe w is.length = true
      · simp [hg] at hadj
      · simp only [Bool.not_eq_true] at hg
        simp only [hg, Bool.false_eq_true, if_false, Except.ok.injEq,
          Prod.mk.injEq] at hadj
        obtain ⟨_, hb2⟩ := hadj
        subst hb2
        exact ⟨rfl, rfl⟩

/-- Witness for C3: the spec's List-bucket scenario — weights
`[10, 20, 30]`, adjusting item `2` to `25` yields delta `+5` and
aggregate `65`. -/
theorem claim_C3_witness :
    (5 : Int) = ((25 : Nat) : Int) - ((20 : Nat) : Int) ∧
      ((Bucket.weight { alg := .list, hash := 0, btype := 0, store := .perItem [(1, 10), (2, 25), (3, 30)], weight := 65 } : Nat) : Int) =
        ((Bucket.weight { alg := .list, hash := 0, btype := 0, store := .perItem [(1, 10), (2, 20), (3, 30)], weight := 60 } : Nat) : Int) +
          (((25 : Nat) : Int) - ((20 : Nat) : Int)) :=
  claim_C3_adjust.1
    { alg := .list, hash := 0, btype := 0,
      store := .perItem [(1, 10), (2, 20), (3, 30)], weight := 60 }
    2 25 20 [(1, 10), (2, 20), (3, 30)] 5
    { alg := .list, hash := 0, btype := 0,
      store := .perItem [(1, 10), (2, 25), (3, 30)], weight := 65 }
    rfl rfl rfl

/-- Supporting fact (not a claim settlement): adding an item that is
not already present with some weight `w` and then immediately removing
that same item restores the bucket to its prior item list and aggregate
weight.  When the item is already present in the bucket, whether the
round trip holds depends on which occurrence the removal takes, which
neither builder.h (builder.c is absent from the snapshot) nor the spec
pins down; this development models first-occurrence removal. -/
theorem add_remove_roundtrip_of_not_mem (b b1 : Bucket) (item : Int) (w : Nat)
    (habs : item ∉ b.items)
    (hadd : crush_bucket_add_item b item w = .ok b1) :
    crush_bucket_remove_item b1 item = .ok b := by
  obtain ⟨alg, hash, btype, store, weight⟩ := b
  cases store with
  | uniform iw is =>
      have hitems : item ∉ is := by simpa [Bucket.items] using habs
      simp only [crush_bucket_add_item] at hadd
      by_cases h1 : w = iw
      · subst h1
        by_cases h2 : crush_addition_is_unsafe weight w = true
        · simp [h2] at hadd
        · simp only [Bool.not_eq_true] at h2
          simp only [ne_eq, not_true_eq_false, if_neg, if_false, h2,
            Bool.false_eq_true, Except.ok.injEq] at hadd
          subst hadd
          simp only [crush_bucket_remove_item]
          rw [if_pos (by simp : item ∈ is ++ [item])]
          rw [List.erase_append_right _ hitems]
          rw [if_neg (by omega : ¬ weight + w < w)]
          simp
      · simp [h1] at hadd
  | perItem l =>
      have hitems : item ∉ l.map Prod.fst := by
        simpa [Bucket.items] using habs
      simp only [crush_bucket_add_item] at hadd
      by_cases h2 : crush_addition_is_unsafe weight w = true
      · simp [h2] at hadd
      · simp only [Bool.not_eq_true] at h2
        simp only [h2, Bool.false_eq_true, if_false, Except.ok.injEq] at hadd
        subst hadd
        simp only [crush_bucket_remove_item, removeList_append_self hitems]
        rw [if_neg (by omega : ¬ weight + w < w)]
        simp

/-- C7: `crush_add_rule` with an explicit rule identifier at or above
`CRUSH_MAX_RULES` — including the boundary value itself — returns
TooManyRules (reported to C callers as -ENOSPC = -28); the operation
yields no updated registry, so the rule registry is unchanged. -/
theorem claim_C7_toomanyrules (m : CrushMap) (rule : Rule) (ruleno : Int)
    (h : (CRUSH_MAX_RULES : Int) ≤ ruleno) :
    crush_add_rule m rule ruleno = .error .TooManyRules ∧
      errCode .TooManyRules = -28 := by
  have hc : CRUSH_MAX_RULES = 256 := rfl
  have h0 : ¬ ruleno < 0 := by omega
  have h1 : CRUSH_MAX_RULES ≤ ruleno.toNat := by omega
  refine ⟨?_, rfl⟩
  simp [crush_add_rule, h0, h1]

/-- Witness for C7 at the exact boundary identifier 256. -/
theorem claim_C7_witness :
    crush_add_rule { buckets := [], rules := [] }
        (crush_make_rule 3 0 0 1 10) 256 =
      .error .TooManyRules :=
  (claim_C7_toomanyrules { buckets := [], rules := [] }
    (crush_make_rule 3 0 0 1 10) 256 (by decide)).1

/-- C8: removing an item present in a bucket succeeds, removes the first
occurrence of the item from the item list, and subtracts the item's
weight from the aggregate, clamping the aggregate at zero instead of
underflowing when the item's weight exceeds the current aggregate; the
clamp is not reported as an error. -/
theorem claim_C8_remove :
    (∀ (b : Bucket) (item : Int) (wi : Nat), itemWeight b item = some wi →
        (crush_bucket_remove_item b item).isOk = true) ∧
    (∀ (b b2 : Bucket) (item : Int) (wi : Nat), itemWeight b item = some wi →
        crush_bucket_remove_item b item = .ok b2 →
        b2.items = b.items.erase item ∧
          b2.weight = (if b.weight < wi then 0 else b.weight - wi)) := by
  constructor
  · intro b item wi _
    obtain ⟨alg, hash, btype, store, weight⟩ := b
    cases store with
    | uniform iw is =>
        simp only [crush_bucket_remove_item]
        by_cases hmem : item ∈ is <;> simp [hmem, Except.isOk, Except.toBool]
    | perItem l =>
        simp only [crush_bucket_remove_item]
        rcases hrl : removeList l item with _ | ⟨w2, l2⟩ <;>
          simp [Except.isOk, Except.toBool]
  · intro b b2 item wi hw hr
    obtain ⟨alg, hash, btype, store, weight⟩ := b
    cases store with
    | uniform iw is =>
        simp only [itemWeight] at hw
        by_cases hmem : item ∈ is
        · simp only [hmem, if_true, Option.some_inj] at hw
          subst hw
          simp only [crush_bucket_remove_item, hmem, if_true,
            Except.ok.injEq] at hr
          subst hr
          exact ⟨rfl, rfl⟩
        · simp [hmem] at hw
    | perItem l =>
        simp only [itemWeight, Option.map_eq_some'] at hw
        obtain ⟨p, hfind, hsnd⟩ := hw
        have hmem : item ∈ l.map Prod.fst := by
          have hp := List.mem_of_find?_eq_some hfind
          have hfst : p.fst = item := by
            have := List.find?_some hfind
            simpa using this
          exact hfst ▸ List.mem_map_of_mem Prod.fst hp
        obtain ⟨w2, l2, hrl⟩ := removeList_some_of_mem hmem
        obtain ⟨_, _, hfst2, hfind2⟩ := removeList_spec hrl
        have hw2 : w2 = wi := by
          rw [hfind] at hfind2
          simp only [Option.map_some', Option.some_inj] at hfind2
          rw [← hfind2, hsnd]
        subst hw2
        simp only [crush_bucket_remove_item, hrl, Except.ok.injEq] at hr
        subst hr
        exact ⟨by simpa [Bucket.items] using hfst2, rfl⟩

/-- Witness for C8: removing item `2` (weight 50) from a Straw2 bucket
whose (stale) aggregate is only 30 succeeds and clamps the aggregate to
zero. -/
theorem claim_C8_witness :
    (crush_bucket_remove_item { alg := .straw2, hash := 0, btype := 0, store := .perItem [(1, 10), (2, 50)], weight := 30 } 2).isOk = true ∧
      (Bucket.items { alg := .straw2, hash := 0, btype := 0, store := .perItem [(1, 10)], weight := 0 } =
        (Bucket.items { alg := .straw2, hash := 0, btype := 0, store := .perItem [(1, 10), (2, 50)], weight := 30 }).erase 2 ∧
        Bucket.weight { alg := .straw2, hash := 0, btype := 0, store := .perItem [(1, 10)], weight := 0 } =
          (if Bucket.weight { alg := .straw2, hash := 0, btype := 0, store := .perItem [(1, 10), (2, 50)], weight := 30 } < 50 then 0
           else Bucket.weight { alg := .straw2, hash := 0, btype := 0, store := .perItem [(1, 10), (2, 50)], weight := 30 } - 50)) :=
  ⟨claim_C8_remove.1
      { alg := .straw2, hash := 0, btype := 0,
        store := .perItem [(1, 10), (2, 50)], weight := 30 } 2 50 rfl,
   claim_C8_remove.2
      { alg := .straw2, hash := 0, btype := 0,
        store := .perItem [(1, 10), (2, 50)], weight := 30 }
      { alg := .straw2, hash := 0, btype := 0,
        store := .perItem [(1, 10)], weight := 0 } 2 50 rfl rfl⟩

/-- C9: adjusting the weight of an item absent from a non-Uniform
bucket reports ItemNotFound; the operation yields no updated bucket, so
the item weights and the aggregate are unchanged. -/
theorem claim_C9_itemnotfound (b : Bucket) (item : Int) (w : Nat)
    (l : List (Int × Nat)) (hs : b.store = .perItem l)
    (habs : item ∉ b.items) :
    crush_bucket_adjust_item_weight b item w = .error .ItemNotFound := by
  have hl : item ∉ l.map Prod.fst := by simpa [Bucket.items, hs] using habs
  rw [crush_bucket_adjust_item_weight, hs]
  simp [adjustList_none hl]

/-- Witness for C9: adjusting absent item `2` on a List bucket holding
only item `1`. -/
theorem claim_C9_witness :
    crush_bucket_adjust_item_weight
      { alg := .list, hash := 0, btype := 0,
        store := .perItem [(1, 10)], weight := 10 } 2 7 =
      .error .ItemNotFound :=
  claim_C9_itemnotfound
    { alg := .list, hash := 0, btype := 0,
      store := .perItem [(1, 10)], weight := 10 } 2 7 [(1, 10)] rfl (by decide)

/-- C2: `crush_addition_is_unsafe` / `crush_multiplication_is_unsafe`
hold exactly when the sum (resp. product) would exceed the maximum
representable unsigned 32-bit value; `crush_bucket_add_item` and
`crush_bucket_adjust_item_weight` reject any mutation whose new
aggregate would exceed that maximum with WeightOverflow (reported to C
callers as -ERANGE = -34) before performing any wrapping arithmetic, and
yield no updated bucket, so the item list and the aggregate are left
exactly as they were. -/
theorem claim_C2_overflow :
    (∀ a b : Nat, crush_addition_is_unsafe a b = true ↔ U32_MAX < a + b) ∧
    (∀ a b : Nat, crush_multiplication_is_unsafe a b = true ↔ U32_MAX < a * b) ∧
    (∀ (b : Bucket) (item : Int) (w : Nat), U32_MAX < b.weight + w →
        (∀ l, b.store = .perItem l →
          crush_bucket_add_item b item w = .error .WeightOverflow) ∧
        (∀ iw is, b.store = .uniform iw is → w = iw →
          crush_bucket_add_item b item w = .error .WeightOverflow)) ∧
    (∀ (b : Bucket) (item : Int) (w ow : Nat) (l l2 : List (Int × Nat)),
        b.store = .perItem l → adjustList l item w = some (ow, l2) →
        ow ≤ b.weight → U32_MAX < b.weight - ow + w →
        crush_bucket_adjust_item_weight b item w = .error .WeightOverflow) ∧
    (∀ (b : Bucket) (item : Int) (w iw : Nat) (is : List Int),
        b.store = .uniform iw is → U32_MAX < w * is.length →
        crush_bucket_adjust_item_weight b item w = .error .WeightOverflow) ∧
    errCode .WeightOverflow = -34 := by
  refine ⟨fun a b => by simp [ crush_addition_is_unsafe],
    fun a b => by simp [ crush_multiplication_is_unsafe], ?_, ?_, ?_, rfl⟩
  · intro b item w hover
    have hun : crush_addition_is_unsafe b.weight w = true := by
      simp [ crush_addition_is_unsafe, hover]
    constructor
    · intro l hs
      rw [crush_bucket_add_item, hs]
      simp [hun]
    · intro iw is hs hwiw
      subst hwiw
      rw [crush_bucket_add_item, hs]
      simp [hun]
  · intro b item w ow l l2 hs hal hle hover
    have hun : crush_addition_is_unsafe (b.weight - ow) w = true := by
      simp [ crush_addition_is_unsafe, hover]
    rw [crush_bucket_adjust_item_weight, hs]
    simp only [hal]
    by_cases hg1 : b.weight < ow
    · simp [hg1]
    · simp [hg1, hun]
  · intro b item w iw is hs hover
    have hun : crush_multiplication_is_unsafe w is.length = true := by
      simp [ crush_multiplication_is_unsafe, hover]
    rw [crush_bucket_adjust_item_weight, hs]
    simp [hun]

/-- Witness for C2: on a List bucket with aggregate 4294967290, adding
an item of weight 10 and adjusting item 1 (weight 5) to 4294967291 both
report WeightOverflow. -/
theorem claim_C2_witness :
    crush_bucket_add_item { alg := .list, hash := 0, btype := 0, store := .perItem [(1, 5)], weight := 4294967290 } 9 10 =
        .error .WeightOverflow ∧
      crush_bucket_adjust_item_weight { alg := .list, hash := 0, btype := 0, store := .perItem [(1, 5)], weight := 4294967290 } 1 4294967291 =
        .error .WeightOverflow :=
  ⟨(claim_C2_overflow.2.2.1
      { alg := .list, hash := 0, btype := 0,
        store := .perItem [(1, 5)], weight := 4294967290 }
      9 10 (by decide)).1 [(1, 5)] rfl,
   claim_C2_overflow.2.2.2.1
      { alg := .list, hash := 0, btype := 0,
        store := .perItem [(1, 5)], weight := 4294967290 }
      1 4294967291 5 [(1, 5)] [(1, 4294967291)] rfl rfl (by decide) (by decide)⟩

/-- C4: `crush_reweight_bucket` performs a deep-first recursive
traversal through nested bucket items; on success every bucket whose
registry entry it changed (including buckets whose aggregates were stale
beforehand), and the root bucket itself, satisfies the variant-defined
aggregate-weight invariant (its aggregate equals the exact sum — for
Uniform, the product — of its children's current per-item weights); the
only error it can report is WeightOverflow, raised when a partial sum
overflows; and, as the concrete third conjunct shows, on overflow the
weights already recomputed are retained (the stale child is left
repaired) and re-running the operation on that partial state reproduces
the same state, so the operation is idempotent and re-runnable. -/
theorem claim_C4_reweight :
    (∀ (fuel : Nat) (m : CrushMap) (bid : Int) (m2 : CrushMap),
        crush_reweight_bucket fuel m bid = some (m2, none) →
        changedConsistent m m2 ∧
          (∀ b2, mapBucket m2 bid = some b2 → bucketConsistentB b2 = true)) ∧
    (∀ (fuel : Nat) (m : CrushMap) (bid : Int) (m2 : CrushMap) (e : BuilderError),
        crush_reweight_bucket fuel m bid = some (m2, some e) →
        e = .WeightOverflow) ∧
    (crush_reweight_bucket 10 { buckets := [some { alg := .list, hash := 0, btype := 0, store := .perItem [(-2, 0), (9, 4294967290)], weight := 0 }, some { alg := .straw2, hash := 0, btype := 0, store := .perItem [(7, 30)], weight := 999 }], rules := [] } (-1) =
        some ({ buckets := [some { alg := .list, hash := 0, btype := 0, store := .perItem [(-2, 30), (9, 4294967290)], weight := 30 }, some { alg := .straw2, hash := 0, btype := 0, store := .perItem [(7, 30)], weight := 30 }], rules := [] }, some .WeightOverflow) ∧
      crush_reweight_bucket 10 { buckets := [some { alg := .list, hash := 0, btype := 0, store := .perItem [(-2, 30), (9, 4294967290)], weight := 30 }, some { alg := .straw2, hash := 0, btype := 0, store := .perItem [(7, 30)], weight := 30 }], rules := [] } (-1) =
        some ({ buckets := [some { alg := .list, hash := 0, btype := 0, store := .perItem [(-2, 30), (9, 4294967290)], weight := 30 }, some { alg := .straw2, hash := 0, btype := 0, store := .perItem [(7, 30)], weight := 30 }], rules := [] }, some .WeightOverflow) ∧
      bucketConsistentB { alg := .straw2, hash := 0, btype := 0, store := .perItem [(7, 30)], weight := 30 } = true) :=
  ⟨fun fuel m bid m2 h =>
      ⟨(reweight_ok fuel m bid m2 h).2.1, (reweight_ok fuel m bid m2 h).2.2⟩,
   reweight_err,
   by decide, by decide, by decide⟩

/-- Witness for C4: reweighting a two-level hierarchy whose root
aggregate is stale (0) and whose nested child -2 carries a corrupted
aggregate (999) succeeds and leaves the recomputed root — aggregate 70,
the exact sum of the refreshed child weight 30 and the leaf weight 40 —
satisfying the invariant. -/
theorem claim_C4_witness :
    bucketConsistentB { alg := .list, hash := 0, btype := 0, store := .perItem [(-2, 30), (5, 40)], weight := 70 } = true ∧
      BuilderError.WeightOverflow = BuilderError.WeightOverflow :=
  ⟨(claim_C4_reweight.1 10
      { buckets := [some { alg := .list, hash := 0, btype := 0, store := .perItem [(-2, 123), (5, 40)], weight := 0 }, some { alg := .straw2, hash := 0, btype := 0, store := .perItem [(7, 10), (8, 20)], weight := 999 }], rules := [] }
      (-1)
      { buckets := [some { alg := .list, hash := 0, btype := 0, store := .perItem [(-2, 30), (5, 40)], weight := 70 }, some { alg := .straw2, hash := 0, btype := 0, store := .perItem [(7, 10), (8, 20)], weight := 30 }], rules := [] }
      (by decide)).2
      { alg := .list, hash := 0, btype := 0, store := .perItem [(-2, 30), (5, 40)], weight := 70 }
      (by decide),
   claim_C4_reweight.2.1 10
      { buckets := [some { alg := .list, hash := 0, btype := 0, store := .perItem [(-2, 0), (9, 4294967290)], weight := 0 }, some { alg := .straw2, hash := 0, btype := 0, store := .perItem [(7, 30)], weight := 999 }], rules := [] }
      (-1)
      { buckets := [some { alg := .list, hash := 0, btype := 0, store := .perItem [(-2, 30), (9, 4294967290)], weight := 30 }, some { alg := .straw2, hash := 0, btype := 0, store := .perItem [(7, 30)], weight := 30 }], rules := [] }
      .WeightOverflow (by decide)⟩

/-- C6: identifier assignment with "auto" selects the numerically
lowest unused identifier in the proper range: for bucket registration
via `crush_add_bucket` a negative identifier — the assigned identifier
is negative, unused, and no unused negative identifier of the
registry's range lies numerically below it — and for rule registration
via `crush_add_rule` the numerically lowest unused identifier in
`[0, CRUSH_MAX_RULES)`; registering a bucket under an explicit
identifier already in use returns AlreadyExists (errCode -17 =
-EEXIST), yielding no updated registry, so the registry is unchanged
(likewise for rules). -/
theorem claim_C6_idassign :
    (∀ (m : CrushMap) (b : Bucket),
        crush_get_next_bucket_id m < 0 ∧
        bucketIdUsedB m (crush_get_next_bucket_id m) = false ∧
        (∀ id2 : Int, id2 < 0 → bucketPos id2 < m.buckets.length →
          bucketIdUsedB m id2 = false → crush_get_next_bucket_id m ≤ id2) ∧
        (∃ m2, crush_add_bucket m none b = .ok (crush_get_next_bucket_id m, m2))) ∧
    (∀ (m : CrushMap) (rule : Rule), freeSlot m.rules < CRUSH_MAX_RULES →
        ruleIdUsedB m (freeSlot m.rules) = false ∧
        (∀ k, k < freeSlot m.rules → ruleIdUsedB m k = true) ∧
        (∃ m2, crush_add_rule m rule (-1) = .ok (freeSlot m.rules, m2))) ∧
    (∀ (m : CrushMap) (n : Int) (b : Bucket), bucketIdUsedB m n = true →
        crush_add_bucket m (some n) b = .error .AlreadyExists) ∧
    (∀ (m : CrushMap) (n : Nat) (rule : Rule), n < CRUSH_MAX_RULES →
        ruleIdUsedB m n = true →
        crush_add_rule m rule (n : Int) = .error .AlreadyExists) ∧
    errCode .AlreadyExists = -17 := by
  refine ⟨?_, ?_, ?_, ?_, rfl⟩
  · intro m b
    have hfs : (0 : Int) ≤ (lastFreeSlot m.buckets : Int) := by positivity
    have hid : crush_get_next_bucket_id m = -1 - (lastFreeSlot m.buckets : Int) := rfl
    have hpos : bucketPos (crush_get_next_bucket_id m) = lastFreeSlot m.buckets := by
      rw [hid]
      simp [bucketPos]
    refine ⟨by omega, ?_, ?_, ?_⟩
    · rw [bucketIdUsedB, mapBucket, if_pos (by omega), hpos]
      rw [lastFreeSlot_getD]
      rfl
    · intro id2 hneg hinrange hunused
      by_contra hnle
      push_neg at hnle
      have hgt : lastFreeSlot m.buckets < bucketPos id2 := by
        rw [hid] at hnle
        simp only [bucketPos] at hinrange ⊢
        omega
      have hsome := getD_isSome_of_gt_lastFreeSlot hgt hinrange
      rw [bucketIdUsedB, mapBucket, if_pos hneg] at hunused
      rw [hunused] at hsome
      simp at hsome
    · refine ⟨{ m with buckets := (growTo m.buckets (bucketPos (crush_get_next_bucket_id m) + 1)).set (bucketPos (crush_get_next_bucket_id m)) (some b) }, ?_⟩
      rw [crush_add_bucket]
      simp only
      rw [if_neg (by omega)]
      rw [if_neg ?hfree]
      case hfree =>
        rw [growTo_getD, hpos, lastFreeSlot_getD]
        simp
  · intro m rule hlt
    refine ⟨?_, ?_, ?_⟩
    · rw [ruleIdUsedB, freeSlot_getD]
      rfl
    · intro k hk
      exact getD_lt_freeSlot hk
    · refine ⟨{ m with rules := (growTo m.rules (freeSlot m.rules + 1)).set (freeSlot m.rules) (some rule) }, ?_⟩
      rw [crush_add_rule]
      simp only [if_pos (by omega : (-1 : Int) < 0)]
      rw [if_neg (by omega)]
      rw [if_neg ?hfree2]
      case hfree2 =>
        rw [growTo_getD, freeSlot_getD]
        simp
  · intro m n b hused
    have hneg : n < 0 := by
      by_contra hge
      rw [bucketIdUsedB, mapBucket, if_neg hge] at hused
      simp at hused
    rw [bucketIdUsedB, mapBucket, if_pos hneg] at hused
    rw [crush_add_bucket]
    simp only
    rw [if_neg (by omega)]
    rw [if_pos (by rw [growTo_getD]; exact hused)]
  · intro m n rule hlt hused
    rw [crush_add_rule]
    have h0 : ¬ ((n : Int) < 0) := by omega
    simp only [h0, if_false, Int.toNat_natCast]
    rw [if_neg (by omega)]
    rw [if_pos (by rw [growTo_getD]; exact hused)]

/-- Witness for C6: in a map whose bucket registry holds `[-1 used,
-2 free, -3 free]` and whose rule registry holds rule 0, auto bucket
assignment hands out an unused identifier (here -3, the numerically
lowest unused one of the registry's range), the next free rule slot (1)
is unused, registering a bucket under the occupied identifier -1
reports AlreadyExists, and so does registering a rule under the
occupied identifier 0. -/
theorem claim_C6_witness :
    bucketIdUsedB { buckets := [some { alg := .list, hash := 0, btype := 0, store := .perItem [], weight := 0 }, none, none], rules := [some (crush_make_rule 1 0 0 1 10)] } (crush_get_next_bucket_id { buckets := [some { alg := .list, hash := 0, btype := 0, store := .perItem [], weight := 0 }, none, none], rules := [some (crush_make_rule 1 0 0 1 10)] }) = false ∧
      ruleIdUsedB { buckets := [some { alg := .list, hash := 0, btype := 0, store := .perItem [], weight := 0 }, none, none], rules := [some (crush_make_rule 1 0 0 1 10)] } (freeSlot (CrushMap.rules { buckets := [some { alg := .list, hash := 0, btype := 0, store := .perItem [], weight := 0 }, none, none], rules := [some (crush_make_rule 1 0 0 1 10)] })) = false ∧
      crush_add_bucket { buckets := [some { alg := .list, hash := 0, btype := 0, store := .perItem [], weight := 0 }, none, none], rules := [some (crush_make_rule 1 0 0 1 10)] } (some (-1)) { alg := .straw2, hash := 0, btype := 0, store := .perItem [], weight := 0 } = .error .AlreadyExists ∧
      crush_add_rule { buckets := [some { alg := .list, hash := 0, btype := 0, store := .perItem [], weight := 0 }, none, none], rules := [some (crush_make_rule 1 0 0 1 10)] } (crush_make_rule 1 0 0 1 10) ((0 : Nat) : Int) = .error .AlreadyExists :=
  ⟨(claim_C6_idassign.1 { buckets := [some { alg := .list, hash := 0, btype := 0, store := .perItem [], weight := 0 }, none, none], rules := [some (crush_make_rule 1 0 0 1 10)] } { alg := .straw2, hash := 0, btype := 0, store := .perItem [], weight := 0 }).2.1,
   (claim_C6_idassign.2.1 { buckets := [some { alg := .list, hash := 0, btype := 0, store := .perItem [], weight := 0 }, none, none], rules := [some (crush_make_rule 1 0 0 1 10)] } (crush_make_rule 1 0 0 1 10) (by decide)).1,
   claim_C6_idassign.2.2.1 { buckets := [some { alg := .list, hash := 0, btype := 0, store := .perItem [], weight := 0 }, none, none], rules := [some (crush_make_rule 1 0 0 1 10)] } (-1) { alg := .straw2, hash := 0, btype := 0, store := .perItem [], weight := 0 } (by decide),
   claim_C6_idassign.2.2.2.1 { buckets := [some { alg := .list, hash := 0, btype := 0, store := .perItem [], weight := 0 }, none, none], rules := [some (crush_make_rule 1 0 0 1 10)] } 0 (crush_make_rule 1 0 0 1 10) (by decide) (by decide)⟩

/-- C10: `crush_finalize` is declared to return no value, so for every
map — including one in which a rule's take step references a bucket
identifier absent from the bucket registry — finalize completes without
reporting any failure, and no result of the cross-reference validation
is observable to the caller: the builder-visible map content is
returned unchanged. -/
theorem claim_C10_finalize :
    (∀ m : CrushMap, crush_finalize m = m) ∧
    (∀ m : CrushMap, crossRefsResolveB m = false → crush_finalize m = m) :=
  ⟨fun _ => rfl, fun _ _ => rfl⟩

/-- Witness for C10: a map whose only rule takes from the absent bucket
-5 fails cross-reference validation, yet finalize completes and returns
the map unchanged. -/
theorem claim_C10_witness :
    crush_finalize { buckets := [], rules := [some (crush_rule_set_step (crush_make_rule 1 0 0 1 10) 0 .take (-5) 0)] } =
      { buckets := [], rules := [some (crush_rule_set_step (crush_make_rule 1 0 0 1 10) 0 .take (-5) 0)] } :=
  claim_C10_finalize.2
    { buckets := [], rules := [some (crush_rule_set_step (crush_make_rule 1 0 0 1 10) 0 .take (-5) 0)] }
    (by decide)

end Crush
